import Mathlib

/-
  Verification development for the Fugu graph-compilation and discrete-time
  spiking-simulation core.

  The repository sources available here are the Python test harnesses
  (test_temporal_adder_brick.py, test_lis_brick.py, test_snn_instant_decay.py)
  and setup.py.  Pure harness functions (convert_input, check_spike_output,
  calculate_max_timesteps) are embedded directly from that source.  The core
  engine (Scaffold, snn backend, bricks) is not among the sources, so its
  behavior is modelled from the specification; every such definition carries a
  doc comment starting with "Modelled from the spec:".

  Machine integers: all Python ints here are non-negative counters and small
  weights; they are embedded as Nat (times, indices, counts) and Int
  (weights/potentials, which the spec calls signed).  The single floating-point
  computation (the 0.5 scale factor of the adder decode) is embedded as the
  exact rational 1/2.
-/

set_option maxRecDepth 8000

/-- Generic helper: the list [f 0, f 1, ..., f (k-1)] built by appending. -/
def buildUp {α : Type} (f : Nat → α) : Nat → List α
  | 0 => []
  | k + 1 => buildUp f k ++ [f k]

/-- Python max() over a list of naturals, with 0 for the (erroring) empty case.
    On the non-empty lists the harness feeds it, this agrees with Python. -/
def listMax (l : List Nat) : Nat := l.foldl max 0

/-- Boolean list-prefix test on character lists. -/
def isPrefixB : List Char → List Char → Bool
  | [], _ => true
  | _ :: _, [] => false
  | a :: as, b :: bs => (a == b) && isPrefixB as bs

/-- Boolean substring (contiguous infix) test on character lists; embeds
    Python's "sub in name". -/
def isInfixB (sub : List Char) : List Char → Bool
  | [] => isPrefixB sub []
  | c :: rest => isPrefixB sub (c :: rest) || isInfixB sub rest

/-- The decimal digit character for d < 10 (and a junk value otherwise). -/
def digitChar : Nat → Char
  | 0 => '0'
  | 1 => '1'
  | 2 => '2'
  | 3 => '3'
  | 4 => '4'
  | 5 => '5'
  | 6 => '6'
  | 7 => '7'
  | 8 => '8'
  | 9 => '9'
  | _ => '0'

/-- Fuelled decimal printing of a natural number (fuel n+1 always suffices). -/
def natDigitsAux : Nat → Nat → List Char
  | 0, _ => []
  | fuel + 1, n =>
    if n < 10 then [digitChar n]
    else natDigitsAux fuel (n / 10) ++ [digitChar (n % 10)]

/-- Decimal digit string of a natural number, as Python's str(). -/
def natDigits (n : Nat) : List Char := natDigitsAux (n + 1) n

/-- Numeric value of a decimal digit character. -/
def charDigitVal (c : Char) : Nat := c.toNat - 48

/-- Parse a decimal digit string, as Python's int() on the strings fed to it. -/
def strToNat (ds : List Char) : Nat := ds.foldl (fun a c => 10 * a + charDigitVal c) 0

/-- Helper for splitting a character list at a separator. -/
def splitOnCharAux (sep : Char) : List Char → List Char → List (List Char)
  | [], cur => [cur.reverse]
  | c :: rest, cur =>
    if c == sep then cur.reverse :: splitOnCharAux sep rest []
    else splitOnCharAux sep rest (c :: cur)

/-- Split a character list at a separator; embeds Python's str.split(sep). -/
def splitOnChar (sep : Char) (s : List Char) : List (List Char) := splitOnCharAux sep s []

/-- Embedded from test_snn_instant_decay.py, convert_input: builds the raster
    matrix (one 0/1 row per channel, length global-max-time + 1, a 1 at each
    requested spike time). -/
def convertInputDecay (spikeTimes : List (List Nat)) : List (List Nat) :=
  spikeTimes.map (fun spikeArray =>
    spikeArray.foldl (fun spikes spike => spikes.set spike 1)
      (List.replicate (spikeTimes.foldl (fun m arr => max m (listMax arr)) 0 + 1) 0))

/-- The global maximum spike time of a list of per-channel spike-time lists
    (the running "max_time" of the harness loops). -/
def globalMaxTime (rows : List (List Nat)) : Nat := rows.foldl (fun m arr => max m (listMax arr)) 0

/-- Embedded from test_snn_instant_decay.py, calculate_max_timesteps: the loop
    tracks max_time, but the return statement reads the loop variable max_seq,
    i.e. the maximum of the LAST sequence.  Embedded faithfully as a fold
    carrying the pair (max_time, max_seq); Python errors on empty input, so
    theorems restrict to non-empty lists of non-empty lists. -/
def calculateMaxTimesteps (inputValues : List (List Nat)) : Nat :=
  2 * (inputValues.foldl (fun acc seq => (max acc.1 (listMax seq), listMax seq)) ((0, 0) : Nat × Nat)).2

/-- Embedded from test_temporal_adder_brick.py, convert_input: two all-zero
    rows of length 2*(max+1), then row 0 gets a 1 at input[0]*2 and row 1 a 1
    at input[1]*2. -/
def convertInputAdder (inputValues : List Nat) : List (List Nat) :=
  let tv := inputValues.map (fun _ => List.replicate (2 * (listMax inputValues + 1)) 0)
  let tv1 := tv.set 0 ((tv.getD 0 []).set (inputValues.getD 0 0 * 2) 1)
  tv1.set 1 ((tv1.getD 1 []).set (inputValues.getD 1 0 * 2) 1)

/-- Embedded from test_lis_brick.py, convert_input: one row per sequence
    element, of length max+1, with a single 1 at column sequence[i]. -/
def convertInputLIS (sequence : List Nat) : List (List Nat) :=
  sequence.map (fun time => (List.replicate (listMax sequence + 1) 0).set time 1)

/-- Embedded from test_temporal_adder_brick.py, check_spike_output: walks the
    spike rows; on each row whose neuron name contains "Sum" it asserts the
    running answer is still negative (none = a failed assertion, i.e. a second
    "Sum" firing) and sets answer = 0.5 * time - 3.  Spike rows are
    (name, time) pairs; scale_factor 0.5 is the exact rational 1/2. -/
def adderDecode : List (List Char × Nat) → ℚ → Option ℚ
  | [], ans => some ans
  | (nm, t) :: rest, ans =>
    if isInfixB ['S', 'u', 'm'] nm then
      if ans < 0 then adderDecode rest ((1 / 2 : ℚ) * (t : ℚ) - 3) else none
    else adderDecode rest ans

/-- Number of spike rows whose neuron name contains "Sum". -/
def countSumSpikes (spikes : List (List Char × Nat)) : Nat :=
  (spikes.filter (fun p => isInfixB ['S', 'u', 'm'] p.1)).length

/-- Embedded from test_lis_brick.py, check_spike_output: answer starts at 0;
    each spike row whose neuron name contains "Main" contributes
    int(name.split("_")[1]) and the answer is the running maximum. -/
def lisDecode : List (List Char × Nat) → Nat → Nat
  | [], ans => ans
  | (nm, _) :: rest, ans =>
    if isInfixB ['M', 'a', 'i', 'n'] nm then
      lisDecode rest
        (if ans < strToNat ((splitOnChar '_' nm).getD 1 []) then
          strToNat ((splitOnChar '_' nm).getD 1 [])
        else ans)
    else lisDecode rest ans

/-- Modelled from the spec (section 3 "Synapse"): a directed edge with a signed
    weight and a non-negative integer delay, between neuron identifiers. -/
structure Synapse where
  src : Nat
  tgt : Nat
  weight : Int
  delay : Nat
deriving DecidableEq

/-- Modelled from the spec (sections 3 and 4.3): the closed tagged variant of
    neuron dynamics.  A passive relay carries its externally scheduled spike
    steps (true at position t = fire at step t); the spec's leaky decay
    "factor" is carried as a ratio of integers. -/
inductive NeuronKind where
  | leakyIntegrate (decayNum decayDen : Int)
  | instantDecay
  | passiveRelay (sched : List Bool)
deriving DecidableEq

/-- Modelled from the spec (section 3 "Neuron"): name, kind, threshold and
    initial/reset potential, plus the probe ("observable") mark of section 4.2. -/
structure Neuron where
  name : List Char
  kind : NeuronKind
  threshold : Int
  reset : Int
  observable : Bool
deriving DecidableEq

/-- Default neuron used only for out-of-range list reads. -/
def defNeuron : Neuron :=
  { name := [], kind := NeuronKind.instantDecay, threshold := 1, reset := 0, observable := false }

/-- Modelled from the spec: a finalized graph; a neuron's identifier is its
    position in the list (contiguous integers in layout order, section 4.2). -/
structure Graph where
  neurons : List Neuron
  synapses : List Synapse
deriving DecidableEq

/-- Modelled from the spec (sections 4.3 and 9): one pending entry of the
    delay-indexed delivery schedule, "(target, weight, arrival-step)".  The
    source and causeStep fields are bookkeeping recording which firing created
    the entry; the dynamics never read them. -/
structure Effect where
  arrival : Nat
  target : Nat
  weight : Int
  source : Nat
  causeStep : Nat
deriving DecidableEq

/-- Modelled from the spec (section 3 "Runtime Neuron State" and section 4.4):
    the simulator-owned mutable record: per-neuron potentials, the pending
    delayed-delivery queue, the recorded spike events (neuron id, step), the
    full firing log (one row of flags per executed step), and the step counter. -/
structure SimState where
  potentials : List Int
  pending : List Effect
  events : List (Nat × Nat)
  fired : List (List Bool)
  step : Nat
deriving DecidableEq

/-- Total weight of pending delayed effects arriving at step t for neuron j
    (the spec's step phase (a) flush, section 4.3). -/
def arrivedSum (pending : List Effect) (t j : Nat) : Int :=
  ((pending.filter (fun e => e.arrival == t && e.target == j)).map (fun e => e.weight)).sum

/-- Total weight of zero-delay synapses into j whose source fired this step so
    far.  Sources are swept in ascending identifier order; fragments are wired
    in dependency order, so on finalized graphs every zero-delay synapse points
    from a lower to a higher identifier (spec sections 4.1, 4.2) and its
    source's flag is already available when the target is evaluated. -/
def zeroDelaySum (syns : List Synapse) (earlier : List Bool) (j : Nat) : Int :=
  ((syns.filter (fun s => s.tgt == j && s.delay == 0 && earlier.getD s.src false)).map
    (fun s => s.weight)).sum

/-- Modelled from the spec (section 4.3 dynamics closures): evaluate one neuron
    for one step from its pre-step potential and this step's accumulated input;
    returns (fired, new potential).  Leaky-integrate decays then accumulates
    and resets on fire; instant-decay starts from a zeroed potential so only
    this step's (coincident) input counts; a passive relay fires exactly at its
    scheduled steps and never integrates. -/
def evalNeuron (nn : Neuron) (pre input : Int) (t : Nat) : Bool × Int :=
  match nn.kind with
  | NeuronKind.passiveRelay sched => (sched.getD t false, pre)
  | NeuronKind.instantDecay =>
    if nn.threshold ≤ 0 + input then (true, nn.reset) else (false, 0 + input)
  | NeuronKind.leakyIntegrate decayNum decayDen =>
    if nn.threshold ≤ decayNum * pre / decayDen + input then (true, nn.reset)
    else (false, decayNum * pre / decayDen + input)

/-- One neuron's evaluation within a step: its accumulated input is the flushed
    delayed arrivals plus the zero-delay contributions of earlier-swept
    sources, applied against the pre-step potential baseline. -/
def evalOf (g : Graph) (pots : List Int) (pend : List Effect) (t j : Nat)
    (earlier : List Bool) : Bool × Int :=
  evalNeuron (g.neurons.getD j defNeuron) (pots.getD j 0)
    (arrivedSum pend t j + zeroDelaySum g.synapses earlier j) t

/-- Firing flags of neurons 0..k-1 at the current step, swept in ascending
    identifier order (each neuron sees the flags of the ones before it). -/
def fireFlags (g : Graph) (pots : List Int) (pend : List Effect) (t : Nat) : Nat → List Bool
  | 0 => []
  | k + 1 =>
    fireFlags g pots pend t k ++ [(evalOf g pots pend t k (fireFlags g pots pend t k)).1]

/-- Post-step potentials of all neurons. -/
def newPotRow (g : Graph) (pots : List Int) (pend : List Effect) (t : Nat) : List Int :=
  buildUp (fun j => (evalOf g pots pend t j (fireFlags g pots pend t j)).2) g.neurons.length

/-- Delayed deliveries created by a firing of neuron j at step t: one pending
    effect per positive-delay outgoing synapse, arriving at t + delay
    (zero-delay synapses are delivered within the sweep instead). -/
def outEffects (syns : List Synapse) (j t : Nat) : List Effect :=
  (syns.filter (fun s => s.src == j && s.delay != 0)).map
    (fun s => { arrival := t + s.delay, target := s.tgt, weight := s.weight,
                source := j, causeStep := t })

/-- All delayed deliveries created at step t, in ascending source order. -/
def newEffects (g : Graph) (row : List Bool) (t : Nat) : List Effect :=
  ((List.range g.neurons.length).map
    (fun j => if row.getD j false then outEffects g.synapses j t else [])).flatten

/-- Spike events recorded at step t: the observable (probe-marked) neurons that
    fired, in ascending identifier order (the spec's tie-break, section 3). -/
def eventsOf (g : Graph) (row : List Bool) (t : Nat) : List (Nat × Nat) :=
  ((List.range g.neurons.length).filter
    (fun j => row.getD j false && (g.neurons.getD j defNeuron).observable)).map (fun j => (j, t))

/-- Modelled from the spec (section 4.3 "Run for N steps", one step): flush the
    deliveries arriving now, evaluate every neuron against its pre-step
    potential, record firings and events, enqueue future deliveries, advance
    the step counter. -/
def stepState (g : Graph) (st : SimState) : SimState :=
  { potentials := newPotRow g st.potentials st.pending st.step
    pending := st.pending.filter (fun e => e.arrival != st.step) ++
      newEffects g (fireFlags g st.potentials st.pending st.step g.neurons.length) st.step
    events := st.events ++
      eventsOf g (fireFlags g st.potentials st.pending st.step g.neurons.length) st.step
    fired := st.fired ++ [fireFlags g st.potentials st.pending st.step g.neurons.length]
    step := st.step + 1 }

/-- The runtime-state record as constructed at the start of a run: potentials
    at their initial/reset values, nothing pending, no events, step 0. -/
def initState (g : Graph) : SimState :=
  { potentials := g.neurons.map (fun nn => nn.reset), pending := [], events := [], fired := [],
    step := 0 }

/-- Run the simulator for n steps from a given runtime-state record. -/
def runFrom (g : Graph) (s : SimState) : Nat → SimState
  | 0 => s
  | k + 1 => stepState g (runFrom g s k)

/-- The state after k steps of a run started from a fresh record. -/
def stateAt (g : Graph) (k : Nat) : SimState := runFrom g (initState g) k

/-- The spike event sequence of an n-step run. -/
def runEvents (g : Graph) (n : Nat) : List (Nat × Nat) := (stateAt g n).events

/-- The firing-flag row computed at step t of a run. -/
def stepRow (g : Graph) (t : Nat) : List Bool :=
  fireFlags g (stateAt g t).potentials (stateAt g t).pending t g.neurons.length

/-- Whether neuron i fired at step t of a run (from the firing log). -/
def firedAt (g : Graph) (i t : Nat) : Bool := ((stateAt g (t + 1)).fired.getD t []).getD i false

/-- The pending delayed-delivery queue as step t begins. -/
def pendingAt (g : Graph) (t : Nat) : List Effect := (stateAt g t).pending

/-- The delayed deliveries flushed (applied to their targets' accumulated
    input) at step t: exactly the pending entries whose arrival step is t. -/
def appliedAt (g : Graph) (t : Nat) : List Effect :=
  (stateAt g t).pending.filter (fun e => e.arrival == t)

/-- The same-step (zero-delay) contribution weights delivered to neuron j at
    step t: one per zero-delay synapse into j whose source fired at t. -/
def contribWeights (g : Graph) (t j : Nat) : List Int :=
  ((g.synapses.filter (fun s => s.tgt == j && s.delay == 0 && firedAt g s.src t)).map
    (fun s => s.weight))

/-- Neuron j's potential as of the start of step t. -/
def preStepPot (g : Graph) (t j : Nat) : Int := (stateAt g t).potentials.getD j 0

/-- The delayed (positive-delay) input flushed to neuron j at step t. -/
def delayedInput (g : Graph) (t j : Nat) : Int := arrivedSum (stateAt g t).pending t j

/-- A runtime-state record constructed for the start of a run on g, as the
    spec describes it (section 3 "Runtime Neuron State", section 5). -/
def isInitialState (g : Graph) (s : SimState) : Prop :=
  s.potentials = g.neurons.map (fun nn => nn.reset) ∧ s.pending = [] ∧ s.events = [] ∧
    s.fired = [] ∧ s.step = 0

/-- Modelled from the spec (section 4.1 input encoders): the passive-relay
    neuron of channel j, scheduled to fire at step t exactly when the raster
    holds a 1 at (j, t). -/
def relayOf (raster : List (List Nat)) (j : Nat) : Neuron :=
  { name := ['i', 'n'] ++ natDigits j,
    kind := NeuronKind.passiveRelay ((raster.getD j []).map (fun x => x == 1)),
    threshold := 1, reset := 0, observable := false }

/-- The observable instant-decay coincidence neuron of the composed graph. -/
def mainOf (raster : List (List Nat)) : Neuron :=
  { name := ['m', 'a', 'i', 'n'], kind := NeuronKind.instantDecay,
    threshold := (raster.length : Int), reset := 0, observable := true }

/-- Modelled from the spec (sections 4.1, 4.3, 8): the composed graph of the
    instant-decay scenarios: one passive-relay neuron per raster row, feeding
    one observable instant-decay "main" neuron (identifier = number of
    channels) through unit-weight zero-delay synapses, with threshold = number
    of channels so that only the coincidence of all channels fires it. -/
def mkInstantDecayGraph (raster : List (List Nat)) : Graph :=
  { neurons := buildUp (relayOf raster) raster.length ++ [mainOf raster],
    synapses := buildUp (fun j => { src := j, tgt := raster.length, weight := 1, delay := 0 })
      raster.length }

/-- Embedded from test_snn_instant_decay.py, check_spike_output: the run
    reports fired iff some spike row's neuron name contains "main". -/
def instantDecayCheck (g : Graph) (spikes : List (Nat × Nat)) : Bool :=
  spikes.any (fun row => isInfixB ['m', 'a', 'i', 'n']
    ((g.neurons.map (fun nn => nn.name)).getD row.1 []))

/-- Modelled from the spec (section 7): the error taxonomy relevant to graph
    assembly and finalization. -/
inductive FuguError where
  | wiringError
  | incompleteGraphError
deriving DecidableEq

/-- Modelled from the spec (section 4.1): a fragment's transient contract: the
    declared arity of each input port position, and how many output ports it
    exposes. -/
structure FragmentSpec where
  inputArities : List Nat
  outputPorts : Nat
deriving DecidableEq

/-- Modelled from the spec (sections 4.1, 4.2): a fragment as recorded in the
    scaffold: per declared input position its (arity, number of connected
    sources), and its number of output ports. -/
structure SFrag where
  portConns : List (Nat × Nat)
  outputs : Nat
deriving DecidableEq

/-- Default fragment record used only for out-of-range list reads. -/
def defSFrag : SFrag := { portConns := [], outputs := 0 }

/-- Modelled from the spec (section 4.2): the growing composition graph: the
    fragments added so far and the frozen-after-finalize flag. -/
structure Scaffold where
  frags : List SFrag
  frozen : Bool
deriving DecidableEq

/-- Modelled from the spec (section 4.2): one add_fragment call: the fragment,
    its connections (input position, referenced prior output ports as
    (fragment index, output index) pairs), and the probe flag. -/
structure AddCall where
  frag : FragmentSpec
  connections : List (Nat × List (Nat × Nat))
  isProbe : Bool
deriving DecidableEq

/-- Whether one connection entry is well-formed: the input position exists, the
    number of sources matches the declared arity, and every referenced prior
    output port exists. -/
def connOk (sc : Scaffold) (f : FragmentSpec) (c : Nat × List (Nat × Nat)) : Bool :=
  decide (c.1 < f.inputArities.length) && (c.2.length == f.inputArities.getD c.1 0) &&
    c.2.all (fun r =>
      decide (r.1 < sc.frags.length) && decide (r.2 < (sc.frags.getD r.1 defSFrag).outputs))

/-- Total number of sources the connection list maps to an input position. -/
def connCount (conns : List (Nat × List (Nat × Nat))) (pos : Nat) : Nat :=
  ((conns.filter (fun c => c.1 == pos)).map (fun c => c.2.length)).sum

/-- Modelled from the spec (section 4.2 add_fragment): fails with WiringError
    if a connection's arity mismatches or a referenced prior output port does
    not exist; otherwise appends the fragment with its per-port connection
    counts (a position absent from the connections keeps count 0, to be
    caught at finalize). -/
def addFragment (sc : Scaffold) (call : AddCall) : Except FuguError Scaffold :=
  if call.connections.all (connOk sc call.frag) then
    Except.ok
      { frags := sc.frags ++
          [{ portConns := (List.range call.frag.inputArities.length).map
              (fun pos => (call.frag.inputArities.getD pos 0, connCount call.connections pos)),
             outputs := call.frag.outputPorts }],
        frozen := sc.frozen }
  else Except.error FuguError.wiringError

/-- The empty scaffold. -/
def scaffold0 : Scaffold := { frags := [], frozen := false }

/-- A scaffold built by a sequence of add_fragment calls (ok iff every call
    succeeded). -/
def buildScaffold (calls : List AddCall) : Except FuguError Scaffold :=
  calls.foldlM addFragment scaffold0

/-- Whether some declared input port across all added fragments has zero
    connections. -/
def hasUnconnected (sc : Scaffold) : Bool :=
  sc.frags.any (fun fr => fr.portConns.any (fun p => p.2 == 0))

/-- Modelled from the spec (sections 4.2, 7 finalize): validates that no
    declared input port is dangling; on failure reports IncompleteGraphError
    and leaves the scaffold exactly as it was; on success freezes the graph.
    The pair is (result, scaffold state after the call). -/
def finalize (sc : Scaffold) : Except FuguError Scaffold × Scaffold :=
  if hasUnconnected sc then (Except.error FuguError.incompleteGraphError, sc)
  else (Except.ok { frags := sc.frags, frozen := true }, { frags := sc.frags, frozen := true })

/-- First index holding a 1 (the single spike time of an input-encoder row of
    the latency-coded harnesses). -/
def firstSpikeTime (row : List Nat) : Nat := row.findIdx (fun x => x == 1)

/-- Modelled from the spec (sections 4.1, 8): the observable behavior of the
    temporal-addition fragment composed with the raster input encoder.  The
    fragment's internal circuit is not among the sources; the spec fixes its
    contract: fed single input spikes at steps s0 and s1 (the value*2 latency
    code), it produces exactly one firing of its "Sum" neuron, at the step
    whose affine decode 0.5 * t - 3 equals the sum of the encoded values,
    i.e. t = s0 + s1 + 6. -/
def modelTemporalAdder (raster : List (List Nat)) : List (List Char × Nat) :=
  [(['S', 'u', 'm'], firstSpikeTime (raster.getD 0 []) + firstSpikeTime (raster.getD 1 []) + 6)]

/-- Whether the list has a strictly increasing subsequence of length k whose
    first element exceeds lo (executable characterization). -/
def hasIncrGt : Nat → List Nat → Nat → Bool
  | _, _, 0 => true
  | _, [], _ + 1 => false
  | lo, a :: rest, k + 1 =>
    (decide (lo < a) && hasIncrGt a rest k) || hasIncrGt lo rest (k + 1)

/-- Strictly-increasing-and-above-lo test for a list. -/
def chainGtB : Nat → List Nat → Bool
  | _, [] => true
  | lo, a :: rest => decide (lo < a) && chainGtB a rest

/-- Strictly increasing test for a list. -/
def strictIncrB : List Nat → Bool
  | [] => true
  | a :: rest => chainGtB a rest

/-- The lengths of all strictly increasing sublists (subsequences) of a list. -/
def incrLens (s : List Nat) : List Nat :=
  ((s.sublists).filter strictIncrB).map (fun l => l.length)

/-- The length of the longest strictly increasing subsequence. -/
def lisLength (s : List Nat) : Nat := listMax (incrLens s)

/-- The name Main_k carried by the k-th level output neuron. -/
def mainNameOf (k : Nat) : List Char := ['M', 'a', 'i', 'n', '_'] ++ natDigits k

/-- Modelled from the spec (section 4.1): the observable behavior of the LIS
    fragment composed with the raster input encoder.  The fragment's internal
    circuit is not among the sources and the spec scopes brick algorithms out,
    describing only the magnitude-as-identity output coding: which "Main"
    neurons fire encodes the result.  Modelled as: after decoding the input
    sequence back from the latency raster (each row carries one spike at the
    encoded value), the neuron Main_k fires iff the sequence has a strictly
    increasing subsequence of length k (1 ≤ k ≤ number of channels). -/
def modelLIS (raster : List (List Nat)) : List (List Char × Nat) :=
  ((List.range' 1 (raster.map (fun row => firstSpikeTime row)).length).filter
    (fun k => hasIncrGt 0 (raster.map (fun row => firstSpikeTime row)) k)).map
    (fun k => (mainNameOf k, 0))

/-- The whole LIS harness pipeline: encode the sequence as a raster, run the
    modelled fragment, decode the spike output as the harness does. -/
def lisPipeline (sequence : List Nat) : Nat :=
  lisDecode (modelLIS (convertInputLIS sequence)) 0

/-- A one-call build: a fragment declaring one input port of arity 1, given no
    connections (used as a concrete instance below). -/
def callUnconnected : AddCall :=
  { frag := { inputArities := [1], outputPorts := 1 }, connections := [], isProbe := false }

/-- The scaffold produced by the one-call build above: its single declared
    input port has zero connections. -/
def scUnconnected : Scaffold := { frags := [{ portConns := [(1, 0)], outputs := 1 }], frozen := false }

/-- The pending delivery entry created when synapse s's source fires at step t. -/
def effectOf (s : Synapse) (t : Nat) : Effect :=
  { arrival := t + s.delay, target := s.tgt, weight := s.weight, source := s.src, causeStep := t }

/-- A small concrete graph for witnesses: a relay (fires at step 0 only)
    feeding an instant-decay neuron through a zero-delay and a delay-2 synapse. -/
def gWit : Graph :=
  { neurons := [
      { name := ['a'], kind := NeuronKind.passiveRelay [true], threshold := 1, reset := 0,
        observable := true },
      { name := ['b'], kind := NeuronKind.instantDecay, threshold := 1, reset := 0,
        observable := true }],
    synapses := [{ src := 0, tgt := 1, weight := 1, delay := 0 },
                 { src := 0, tgt := 1, weight := 1, delay := 2 }] }

/-- The composed instant-decay graph of the no-coincidence scenario: channel 0
    spikes at the odd steps 1,3,5,7,9 and channel 1 at the even steps 2,4,6,8. -/
def gNoFire : Graph := mkInstantDecayGraph (convertInputDecay [[1, 3, 5, 7, 9], [2, 4, 6, 8]])

/-- A runtime-state record for gWit, constructed by hand. -/
def sWitA : SimState :=
  { potentials := [0, 0], pending := [], events := [], fired := [], step := 0 }

/-- A second, independently constructed runtime-state record for gWit. -/
def sWitB : SimState :=
  { potentials := [0, 0], pending := [], events := [], fired := [], step := 0 }

theorem le_foldl_max (l : List Nat) (a : Nat) : a ≤ l.foldl max a := by
  induction l generalizing a with
  | nil => exact Nat.le_refl a
  | cons x xs ih => exact Nat.le_trans (Nat.le_max_left a x) (ih (max a x))

theorem foldl_max_le {c : Nat} (l : List Nat) (a : Nat) (ha : a ≤ c)
    (h : ∀ x ∈ l, x ≤ c) : l.foldl max a ≤ c := by
  induction l generalizing a with
  | nil => exact ha
  | cons x xs ih =>
    exact ih (max a x) (Nat.max_le.mpr ⟨ha, h x (List.mem_cons_self x xs)⟩)
      (fun y hy => h y (List.mem_cons_of_mem x hy))

theorem le_foldl_max_of_mem {x : Nat} {l : List Nat} (a : Nat) (h : x ∈ l) :
    x ≤ l.foldl max a := by
  induction l generalizing a with
  | nil => cases h
  | cons y ys ih =>
    rcases List.mem_cons.mp h with h1 | h2
    · exact h1 ▸ Nat.le_trans (Nat.le_max_right a x) (le_foldl_max ys (max a x))
    · exact ih (max a y) h2

theorem foldl_max_choice (l : List Nat) (a : Nat) : l.foldl max a = a ∨ l.foldl max a ∈ l := by
  induction l generalizing a with
  | nil => exact Or.inl rfl
  | cons x xs ih =>
    rcases ih (max a x) with h | h
    · rcases max_choice a x with hm | hm
      · exact Or.inl (by rw [List.foldl_cons, h, hm])
      · exact Or.inr (by rw [List.foldl_cons, h, hm]; exact List.mem_cons_self x xs)
    · exact Or.inr (List.mem_cons_of_mem x h)

theorem listMax_mem {l : List Nat} (h : l ≠ []) : listMax l ∈ l := by
  rcases foldl_max_choice l 0 with h0 | hm
  · cases l with
    | nil => cases h rfl
    | cons x xs =>
      have hx : x ≤ List.foldl max 0 (x :: xs) := le_foldl_max_of_mem 0 (List.mem_cons_self x xs)
      have hx0 : x = 0 := by omega
      show listMax (x :: xs) ∈ x :: xs
      unfold listMax
      rw [h0, ← hx0]
      exact List.mem_cons_self x xs
  · exact hm

/-- Claim C1: the temporal-addition fragment fed values 10 and 7, each encoded
    as one input spike under the value*2 latency code (steps 20 and 14),
    produces exactly one firing of a neuron whose name contains "Sum", and the
    harness decode 0.5 * fire_time - 3 of that firing equals 17. -/
theorem c1_adder_10_7_decodes_to_17 :
    countSumSpikes (modelTemporalAdder (convertInputAdder [10, 7])) = 1 ∧
      adderDecode (modelTemporalAdder (convertInputAdder [10, 7])) (-1) = some 17 := by
  constructor
  · decide
  · have h : modelTemporalAdder (convertInputAdder [10, 7]) = [(['S', 'u', 'm'], 40)] := by
      decide
    rw [h]
    have hin : isInfixB ['S', 'u', 'm'] ['S', 'u', 'm'] = true := by decide
    simp only [adderDecode, hin, if_true]
    norm_num

/-- Claim C2: with input spikes on channel 0 at steps 5 and 10 and on channel 1
    at steps 2 and 10, running the composed instant-decay graph for 15 steps
    yields the observable "main" neuron (identifier 2) firing exactly once, at
    step 10, and the harness check reports fired = true. -/
theorem c2_instant_decay_coincidence_fires :
    runEvents (mkInstantDecayGraph (convertInputDecay [[5, 10], [2, 10]])) 15 = [(2, 10)] ∧
      instantDecayCheck (mkInstantDecayGraph (convertInputDecay [[5, 10], [2, 10]]))
        (runEvents (mkInstantDecayGraph (convertInputDecay [[5, 10], [2, 10]])) 15) = true := by
  decide

theorem pairFoldSnd (l : List (List Nat)) (a : Nat × Nat) (h : l ≠ []) :
    (l.foldl (fun acc seq => (max acc.1 (listMax seq), listMax seq)) a).2
      = listMax (l.getLast h) := by
  induction l generalizing a with
  | nil => cases h rfl
  | cons x xs ih =>
    cases xs with
    | nil => rfl
    | cons y ys =>
      rw [List.foldl_cons, List.getLast_cons (List.cons_ne_nil y ys)]
      exact ih _ (List.cons_ne_nil y ys)

theorem globalMaxTime_eq_listMax (rows : List (List Nat)) :
    globalMaxTime rows = listMax (rows.map listMax) := by
  unfold globalMaxTime listMax
  rw [List.foldl_map]

theorem listMax_le_globalMaxTime {r : List Nat} {rows : List (List Nat)} (h : r ∈ rows) :
    listMax r ≤ globalMaxTime rows := by
  rw [globalMaxTime_eq_listMax]
  exact le_foldl_max_of_mem 0 (List.mem_map_of_mem listMax h)

/-- Claim C10: calculate_max_timesteps returns 2 times the maximum spike time
    of the LAST channel (the Python return statement reads the loop variable,
    not the tracked global maximum), and it equals 2 times the global maximum
    exactly when the last channel contains the globally latest spike. -/
theorem c10_max_timesteps_reads_last_channel (vals : List (List Nat)) (h1 : vals ≠ [])
    (h2 : ∀ r ∈ vals, r ≠ []) :
    calculateMaxTimesteps vals = 2 * listMax (vals.getLast h1) ∧
      (calculateMaxTimesteps vals = 2 * globalMaxTime vals ↔
        globalMaxTime vals ∈ vals.getLast h1) := by
  have hpart1 : calculateMaxTimesteps vals = 2 * listMax (vals.getLast h1) := by
    unfold calculateMaxTimesteps
    rw [pairFoldSnd vals ((0, 0) : Nat × Nat) h1]
  refine ⟨hpart1, ?_⟩
  rw [hpart1]
  have hcancel : 2 * listMax (vals.getLast h1) = 2 * globalMaxTime vals ↔
      listMax (vals.getLast h1) = globalMaxTime vals := by omega
  rw [hcancel]
  constructor
  · intro heq
    rw [← heq]
    exact listMax_mem (h2 (vals.getLast h1) (List.getLast_mem h1))
  · intro hmem
    exact Nat.le_antisymm (listMax_le_globalMaxTime (List.getLast_mem h1))
      (le_foldl_max_of_mem 0 hmem)

theorem c10_witness :
    calculateMaxTimesteps [[1, 3, 5, 7, 9], [2, 4, 6, 8]] = 2 * listMax [2, 4, 6, 8] ∧
      (calculateMaxTimesteps [[1, 3, 5, 7, 9], [2, 4, 6, 8]]
          = 2 * globalMaxTime [[1, 3, 5, 7, 9], [2, 4, 6, 8]] ↔
        globalMaxTime [[1, 3, 5, 7, 9], [2, 4, 6, 8]] ∈ [2, 4, 6, 8]) :=
  c10_max_timesteps_reads_last_channel [[1, 3, 5, 7, 9], [2, 4, 6, 8]] (by decide) (by decide)

/-- Claim C7: after any valid sequence of add_fragment calls, finalize fails
    with IncompleteGraphError exactly when some declared input port of some
    added fragment has zero connections, and on failure the scaffold is left
    exactly as it was (all-or-nothing). -/
theorem c7_finalize_incomplete_iff (calls : List AddCall) (sc : Scaffold)
    (hb : buildScaffold calls = Except.ok sc) :
    ((finalize sc).1 = Except.error FuguError.incompleteGraphError ↔
      ∃ fr ∈ sc.frags, ∃ p ∈ fr.portConns, p.2 = 0) ∧
    ((finalize sc).1 = Except.error FuguError.incompleteGraphError → (finalize sc).2 = sc) := by
  by_cases h : hasUnconnected sc = true
  · refine ⟨⟨fun _ => ?_, fun _ => by simp [finalize, h]⟩, fun _ => by simp [finalize, h]⟩
    obtain ⟨fr, hfr, hp⟩ := List.any_eq_true.mp h
    obtain ⟨p, hpm, hp0⟩ := List.any_eq_true.mp hp
    exact ⟨fr, hfr, p, hpm, Nat.beq_eq_true_eq p.2 0 ▸ hp0⟩
  · have hne : hasUnconnected sc = false := Bool.eq_false_iff.mpr h
    refine ⟨⟨fun hcontra => ?_, fun hex => ?_⟩, fun hcontra => ?_⟩
    · simp [finalize, hne] at hcontra
    · exfalso
      apply h
      obtain ⟨fr, hfr, p, hpm, hp0⟩ := hex
      exact List.any_eq_true.mpr
        ⟨fr, hfr, List.any_eq_true.mpr ⟨p, hpm, by simp [hp0]⟩⟩
    · simp [finalize, hne] at hcontra

theorem c7_witness :
    buildScaffold [callUnconnected] = Except.ok scUnconnected ∧
      (((finalize scUnconnected).1 = Except.error FuguError.incompleteGraphError ↔
          ∃ fr ∈ scUnconnected.frags, ∃ p ∈ fr.portConns, p.2 = 0) ∧
        ((finalize scUnconnected).1 = Except.error FuguError.incompleteGraphError →
          (finalize scUnconnected).2 = scUnconnected)) :=
  ⟨rfl, c7_finalize_incomplete_iff [callUnconnected] scUnconnected rfl⟩

theorem getD_set_ne {α : Type} (l : List α) (s t : Nat) (x d : α) (h : t ≠ s) :
    (l.set s x).getD t d = l.getD t d := by
  rw [List.getD_eq_getElem?_getD, List.getD_eq_getElem?_getD,
    List.getElem?_set_ne (fun hh => h hh.symm)]

theorem getD_set_self {α : Type} (l : List α) (s : Nat) (x d : α) (h : s < l.length) :
    (l.set s x).getD s d = x := by
  rw [List.getD_eq_getElem _ _ (by rw [List.length_set]; exact h), List.getElem_set_self]

theorem getD_replicate_zero (n t : Nat) : (List.replicate n (0 : Nat)).getD t 0 = 0 := by
  by_cases h : t < n
  · rw [List.getD_eq_getElem _ _ (by simpa using h), List.getElem_replicate]
  · exact List.getD_eq_default _ _ (by simpa using Nat.le_of_not_lt h)

theorem getD_mem {α : Type} (l : List α) (c : Nat) (d : α) (h : c < l.length) :
    l.getD c d ∈ l := by
  rw [List.getD_eq_getElem _ _ h]
  exact List.getElem_mem h

theorem getD_map_lt {α β : Type} (f : α → β) (l : List α) (c : Nat) (d : α) (d' : β)
    (h : c < l.length) : (l.map f).getD c d' = f (l.getD c d) := by
  rw [List.getD_eq_getElem _ _ (by simpa using h), List.getD_eq_getElem _ _ h, List.getElem_map]

theorem foldl_set_getD (spikes : List Nat) (base : List Nat) (t : Nat)
    (hs : ∀ s ∈ spikes, s < base.length) :
    (spikes.foldl (fun r s => r.set s 1) base).getD t 0
      = if t ∈ spikes then 1 else base.getD t 0 := by
  induction spikes generalizing base with
  | nil => simp
  | cons s rest ih =>
    rw [List.foldl_cons, ih (base.set s 1)
      (fun x hx => by rw [List.length_set]; exact hs x (List.mem_cons_of_mem s hx))]
    by_cases ht : t ∈ rest
    · simp [ht]
    · by_cases hts : t = s
      · subst hts
        rw [if_neg ht, if_pos (List.mem_cons_self t rest)]
        exact getD_set_self base t 1 0 (hs t (List.mem_cons_self t rest))
      · have hnm : ¬ t ∈ s :: rest := by simp [List.mem_cons, hts, ht]
        rw [if_neg ht, if_neg hnm, getD_set_ne base s t 1 0 hts]

theorem convertInputDecay_getD (st : List (List Nat)) (c t : Nat) (hc : c < st.length) :
    ((convertInputDecay st).getD c []).getD t 0 = if t ∈ st.getD c [] then 1 else 0 := by
  unfold convertInputDecay
  rw [getD_map_lt _ st c [] [] hc]
  rw [foldl_set_getD (st.getD c []) _ t (fun s hsm => by
    rw [List.length_replicate]
    have h1 : s ≤ listMax (st.getD c []) := le_foldl_max_of_mem 0 hsm
    have h2 : listMax (st.getD c []) ≤ globalMaxTime st :=
      listMax_le_globalMaxTime (getD_mem st c [] hc)
    have h3 : globalMaxTime st = st.foldl (fun m arr => max m (listMax arr)) 0 := rfl
    omega)]
  rw [getD_replicate_zero]

theorem buildUp_length {α : Type} (f : Nat → α) (k : Nat) : (buildUp f k).length = k := by
  induction k with
  | zero => rfl
  | succ k ih => simp [buildUp, ih]

theorem getD_append_at_length {α : Type} (l : List α) (x d : α) :
    (l ++ [x]).getD l.length d = x := by
  rw [List.getD_append_right _ _ _ _ (Nat.le_refl _)]
  simp

theorem buildUp_getD {α : Type} (f : Nat → α) (k j : Nat) (d : α) (h : j < k) :
    (buildUp f k).getD j d = f j := by
  induction k with
  | zero => omega
  | succ k ih =>
    rcases Nat.lt_succ_iff_lt_or_eq.mp h with h' | h'
    · have hh : (buildUp f (k + 1)).getD j d = (buildUp f k).getD j d :=
        List.getD_append _ _ _ j (by rw [buildUp_length]; exact h')
      rw [hh]
      exact ih h'
    · subst h'
      have h2 := getD_append_at_length (buildUp f j) (f j) d
      rw [buildUp_length] at h2
      exact h2

theorem fireFlags_length (g : Graph) (pots : List Int) (pend : List Effect) (t k : Nat) :
    (fireFlags g pots pend t k).length = k := by
  induction k with
  | zero => rfl
  | succ k ih => simp [fireFlags, ih]

theorem fireFlags_getD (g : Graph) (pots : List Int) (pend : List Effect) (t k j : Nat)
    (h : j < k) :
    (fireFlags g pots pend t k).getD j false
      = (evalOf g pots pend t j (fireFlags g pots pend t j)).1 := by
  induction k with
  | zero => omega
  | succ k ih =>
    rcases Nat.lt_succ_iff_lt_or_eq.mp h with h' | h'
    · have hh : (fireFlags g pots pend t (k + 1)).getD j false
          = (fireFlags g pots pend t k).getD j false :=
        List.getD_append _ _ _ j (by rw [fireFlags_length]; exact h')
      rw [hh]
      exact ih h'
    · subst h'
      have h2 := getD_append_at_length (fireFlags g pots pend t j)
        ((evalOf g pots pend t j (fireFlags g pots pend t j)).1) false
      rw [fireFlags_length] at h2
      exact h2

theorem stateAt_step (g : Graph) (k : Nat) : (stateAt g k).step = k := by
  induction k with
  | zero => rfl
  | succ k ih =>
    have hh : (stateAt g (k + 1)).step = (stateAt g k).step + 1 := rfl
    rw [hh, ih]

theorem stateAt_fired_length (g : Graph) (k : Nat) : (stateAt g k).fired.length = k := by
  induction k with
  | zero => rfl
  | succ k ih =>
    have hh : (stateAt g (k + 1)).fired = (stateAt g k).fired ++
        [fireFlags g (stateAt g k).potentials (stateAt g k).pending (stateAt g k).step
          g.neurons.length] := rfl
    rw [hh, List.length_append, ih]
    rfl

theorem stateAt_fired_getD (g : Graph) (t k : Nat) (h : t < k) :
    (stateAt g k).fired.getD t [] = stepRow g t := by
  induction k with
  | zero => omega
  | succ k ih =>
    have hh : (stateAt g (k + 1)).fired = (stateAt g k).fired ++
        [fireFlags g (stateAt g k).potentials (stateAt g k).pending (stateAt g k).step
          g.neurons.length] := rfl
    rcases Nat.lt_succ_iff_lt_or_eq.mp h with h' | h'
    · rw [hh, List.getD_append _ _ _ t (by rw [stateAt_fired_length]; exact h')]
      exact ih h'
    · subst h'
      rw [hh, stateAt_step]
      have h2 := getD_append_at_length (stateAt g t).fired
        (fireFlags g (stateAt g t).potentials (stateAt g t).pending t g.neurons.length)
        ([] : List Bool)
      rw [stateAt_fired_length] at h2
      exact h2

theorem firedAt_eq_stepRow (g : Graph) (i t : Nat) :
    firedAt g i t = (stepRow g t).getD i false := by
  unfold firedAt
  rw [stateAt_fired_getD g t (t + 1) (Nat.lt_succ_self t)]

theorem stepRow_length (g : Graph) (t : Nat) : (stepRow g t).length = g.neurons.length :=
  fireFlags_length g _ _ t g.neurons.length

theorem firedAt_flag (g : Graph) (i t : Nat) (hi : i < g.neurons.length) :
    firedAt g i t = (evalOf g (stateAt g t).potentials (stateAt g t).pending t i
      (fireFlags g (stateAt g t).potentials (stateAt g t).pending t i)).1 := by
  rw [firedAt_eq_stepRow]
  exact fireFlags_getD g _ _ t g.neurons.length i hi

theorem firedAt_lt_of_true {g : Graph} {i t : Nat} (h : firedAt g i t = true) :
    i < g.neurons.length := by
  by_contra hge
  rw [firedAt_eq_stepRow] at h
  rw [List.getD_eq_default _ _ (by rw [stepRow_length]; omega)] at h
  cases h

theorem getD_map_beq (l : List Nat) (t : Nat) :
    (l.map (fun x => x == 1)).getD t false = (l.getD t 0 == 1) := by
  induction l generalizing t with
  | nil => rfl
  | cons x xs ih =>
    cases t with
    | zero => rfl
    | succ t => exact ih t

/-- Claim C8: the raster matrix built by the harness has a 1 at row c, column t
    exactly when channel c is scheduled to spike at step t, and the input
    encoder makes channel c's relay neuron fire at exactly those steps. -/
theorem c8_raster_mapping_literal (st : List (List Nat)) (c t : Nat)
    (hne : ∀ r ∈ st, r ≠ []) (hc : c < st.length) :
    (((convertInputDecay st).getD c []).getD t 0 = 1 ↔ t ∈ st.getD c []) ∧
      (firedAt (mkInstantDecayGraph (convertInputDecay st)) c t = true ↔ t ∈ st.getD c []) := by
  have hiff : ((convertInputDecay st).getD c []).getD t 0 = 1 ↔ t ∈ st.getD c [] := by
    rw [convertInputDecay_getD st c t hc]
    by_cases h : t ∈ st.getD c []
    · simp [h]
    · simp [h]
  refine ⟨hiff, ?_⟩
  have hc' : c < (convertInputDecay st).length := by
    unfold convertInputDecay
    rw [List.length_map]
    exact hc
  have hcn : c < (mkInstantDecayGraph (convertInputDecay st)).neurons.length := by
    show c < (buildUp (relayOf (convertInputDecay st)) (convertInputDecay st).length ++
      [mainOf (convertInputDecay st)]).length
    rw [List.length_append, buildUp_length]
    exact Nat.lt_succ_of_lt hc'
  rw [firedAt_flag _ c t hcn]
  have hneu : (mkInstantDecayGraph (convertInputDecay st)).neurons.getD c defNeuron
      = relayOf (convertInputDecay st) c := by
    show (buildUp (relayOf (convertInputDecay st)) (convertInputDecay st).length ++
      [mainOf (convertInputDecay st)]).getD c defNeuron = _
    rw [List.getD_append _ _ _ c (by rw [buildUp_length]; exact hc')]
    exact buildUp_getD _ _ c defNeuron hc'
  unfold evalOf
  rw [hneu]
  show (((convertInputDecay st).getD c []).map (fun x => x == 1)).getD t false = true ↔
    t ∈ st.getD c []
  rw [getD_map_beq, beq_iff_eq]
  exact hiff

theorem c8_witness :
    (((convertInputDecay [[5, 10], [2, 10]]).getD 0 []).getD 5 0 = 1 ↔ 5 ∈ [5, 10]) ∧
      (firedAt (mkInstantDecayGraph (convertInputDecay [[5, 10], [2, 10]])) 0 5 = true ↔
        5 ∈ [5, 10]) :=
  c8_raster_mapping_literal [[5, 10], [2, 10]] 0 5 (by decide) (by decide)

/-- Claim C4: for every finalized graph and step count, running the simulator
    on two independently constructed runtime-state records yields identical
    spike event sequences (the core dynamics are deterministic). -/
theorem c4_determinism (g : Graph) (n : Nat) (s1 s2 : SimState)
    (h1 : isInitialState g s1) (h2 : isInitialState g s2) :
    (runFrom g s1 n).events = (runFrom g s2 n).events := by
  obtain ⟨a1, b1, c1, d1, e1⟩ := h1
  obtain ⟨a2, b2, c2, d2, e2⟩ := h2
  have hs : s1 = s2 := by
    cases s1
    cases s2
    simp_all
  rw [hs]

theorem c4_witness :
    isInitialState gWit sWitA ∧ isInitialState gWit sWitB ∧
      (runFrom gWit sWitA 3).events = (runFrom gWit sWitB 3).events :=
  ⟨⟨rfl, rfl, rfl, rfl, rfl⟩, ⟨rfl, rfl, rfl, rfl, rfl⟩,
    c4_determinism gWit 3 sWitA sWitB ⟨rfl, rfl, rfl, rfl, rfl⟩ ⟨rfl, rfl, rfl, rfl, rfl⟩⟩

theorem pending_after_fire (g : Graph) (s : Synapse) (t : Nat) (hs : s ∈ g.synapses)
    (hd : s.delay ≠ 0) (hf : firedAt g s.src t = true) :
    effectOf s t ∈ (stateAt g (t + 1)).pending := by
  have hlt : s.src < g.neurons.length := firedAt_lt_of_true hf
  have hh : (stateAt g (t + 1)).pending
      = (stateAt g t).pending.filter (fun e => e.arrival != (stateAt g t).step) ++
        newEffects g (fireFlags g (stateAt g t).potentials (stateAt g t).pending
          (stateAt g t).step g.neurons.length) (stateAt g t).step := rfl
  rw [hh, stateAt_step]
  apply List.mem_append_right
  unfold newEffects
  rw [List.mem_flatten]
  refine ⟨outEffects g.synapses s.src t, ?_, ?_⟩
  · rw [List.mem_map]
    refine ⟨s.src, List.mem_range.mpr hlt, ?_⟩
    rw [firedAt_eq_stepRow] at hf
    have hrow : (fireFlags g (stateAt g t).potentials (stateAt g t).pending t
        g.neurons.length).getD s.src false = true := hf
    exact if_pos hrow
  · unfold outEffects
    rw [List.mem_map]
    refine ⟨s, List.mem_filter.mpr ⟨hs, ?_⟩, rfl⟩
    simp [hd]

theorem pending_persist (g : Graph) (e : Effect) (k : Nat) (hm : e ∈ (stateAt g k).pending)
    (hne : e.arrival ≠ k) : e ∈ (stateAt g (k + 1)).pending := by
  have hh : (stateAt g (k + 1)).pending
      = (stateAt g k).pending.filter (fun e => e.arrival != (stateAt g k).step) ++
        newEffects g (fireFlags g (stateAt g k).potentials (stateAt g k).pending
          (stateAt g k).step g.neurons.length) (stateAt g k).step := rfl
  rw [hh, stateAt_step]
  apply List.mem_append_left
  rw [List.mem_filter]
  exact ⟨hm, by simp [hne]⟩

/-- Claim C5: for a synapse with delay d > 0, a firing of its source at step t
    creates a delivery that stays queued from the end of step t through step
    t + d, is flushed into its target's accumulated input exactly at step
    t + d, at no other step, and the delayed input of any neuron at any step is
    precisely the summed weight of the deliveries flushed to it that step. -/
theorem c5_delay_correctness (g : Graph) (s : Synapse) (t : Nat) (hs : s ∈ g.synapses)
    (hd : 0 < s.delay) (hf : firedAt g s.src t = true) :
    (∀ k, t + 1 ≤ k → k ≤ t + s.delay → effectOf s t ∈ pendingAt g k) ∧
      effectOf s t ∈ appliedAt g (t + s.delay) ∧
      (∀ u, u ≠ t + s.delay → effectOf s t ∉ appliedAt g u) ∧
      (∀ u j, delayedInput g u j
        = (((appliedAt g u).filter (fun e => e.target == j)).map (fun e => e.weight)).sum) := by
  have hmem : ∀ k, t + 1 ≤ k → k ≤ t + s.delay → effectOf s t ∈ pendingAt g k := by
    intro k hk1 hk2
    induction k, hk1 using Nat.le_induction with
    | base => exact pending_after_fire g s t hs (by omega) hf
    | succ n hmn ih =>
      have hm : effectOf s t ∈ (stateAt g n).pending := ih (by omega)
      exact pending_persist g (effectOf s t) n hm (by show t + s.delay ≠ n; omega)
  refine ⟨hmem, ?_, ?_, ?_⟩
  · unfold appliedAt
    rw [List.mem_filter]
    exact ⟨hmem (t + s.delay) (by omega) (Nat.le_refl _), by simp [effectOf]⟩
  · intro u hu hmm
    unfold appliedAt at hmm
    rw [List.mem_filter] at hmm
    have : t + s.delay = u := by
      have hb := hmm.2
      simp [effectOf] at hb
      exact hb
    exact hu this.symm
  · intro u j
    unfold delayedInput arrivedSum appliedAt
    rw [List.filter_filter]
    congr 1
    congr 1
    apply List.filter_congr
    intro e _
    exact Bool.and_comm (e.arrival == u) (e.target == j)

theorem c5_witness :
    ({ src := 0, tgt := 1, weight := 1, delay := 2 } : Synapse) ∈ gWit.synapses ∧
      firedAt gWit 0 0 = true ∧
      effectOf { src := 0, tgt := 1, weight := 1, delay := 2 } 0 ∈ appliedAt gWit 2 :=
  ⟨by decide, by decide,
    (c5_delay_correctness gWit { src := 0, tgt := 1, weight := 1, delay := 2 } 0 (by decide)
      (by decide) (by decide)).2.1⟩

theorem zeroDelaySum_eq_contrib (g : Graph) (t j : Nat)
    (hwf : ∀ s' ∈ g.synapses, s'.delay = 0 → s'.src < s'.tgt) (hj : j < g.neurons.length) :
    zeroDelaySum g.synapses
        (fireFlags g (stateAt g t).potentials (stateAt g t).pending t j) j
      = (contribWeights g t j).sum := by
  unfold zeroDelaySum contribWeights
  congr 2
  apply List.filter_congr
  intro s' hs'
  by_cases h1 : s'.tgt = j
  · by_cases h2 : s'.delay = 0
    · have hsrc : s'.src < j := h1 ▸ hwf s' hs' h2
      have hff : (fireFlags g (stateAt g t).potentials (stateAt g t).pending t j).getD
          s'.src false
          = (evalOf g (stateAt g t).potentials (stateAt g t).pending t s'.src
            (fireFlags g (stateAt g t).potentials (stateAt g t).pending t s'.src)).1 :=
        fireFlags_getD g _ _ t j s'.src hsrc
      have hfa : firedAt g s'.src t
          = (evalOf g (stateAt g t).potentials (stateAt g t).pending t s'.src
            (fireFlags g (stateAt g t).potentials (stateAt g t).pending t s'.src)).1 :=
        firedAt_flag g s'.src t (Nat.lt_trans hsrc hj)
      rw [hff, ← hfa]
    · have hb : (s'.delay == 0) = false := beq_eq_false_iff_ne.mpr h2
      rw [hb]
      simp
  · have hb : (s'.tgt == j) = false := beq_eq_false_iff_ne.mpr h1
    rw [hb]
    simp

theorem stateAt_pot_getD (g : Graph) (k j : Nat) (hj : j < g.neurons.length) :
    (stateAt g (k + 1)).potentials.getD j 0
      = (evalOf g (stateAt g k).potentials (stateAt g k).pending k j
        (fireFlags g (stateAt g k).potentials (stateAt g k).pending k j)).2 := by
  have hh : (stateAt g (k + 1)).potentials
      = newPotRow g (stateAt g k).potentials (stateAt g k).pending (stateAt g k).step := rfl
  rw [hh, stateAt_step]
  unfold newPotRow
  exact buildUp_getD _ _ j 0 hj

/-- Claim C6: for a zero-delay synapse from A to B on a finalized graph (whose
    zero-delay synapses point from lower to higher identifiers, as finalize
    numbers neurons in wiring dependency order), a firing of A at step t is one
    of B's same-step contribution weights; B's firing and new potential at step
    t are computed by its dynamics rule from its potential as of the START of
    step t plus the summed contributions; and that sum is invariant under any
    permutation (application order) of the contributions. -/
theorem c6_zero_delay_prestep (g : Graph) (s : Synapse) (t : Nat)
    (hwf : ∀ s' ∈ g.synapses, s'.delay = 0 → s'.src < s'.tgt)
    (hs : s ∈ g.synapses) (hd : s.delay = 0) (htgt : s.tgt < g.neurons.length)
    (hf : firedAt g s.src t = true) :
    s.weight ∈ contribWeights g t s.tgt ∧
      firedAt g s.tgt t = (evalNeuron (g.neurons.getD s.tgt defNeuron) (preStepPot g t s.tgt)
        (delayedInput g t s.tgt + (contribWeights g t s.tgt).sum) t).1 ∧
      (stateAt g (t + 1)).potentials.getD s.tgt 0
        = (evalNeuron (g.neurons.getD s.tgt defNeuron) (preStepPot g t s.tgt)
          (delayedInput g t s.tgt + (contribWeights g t s.tgt).sum) t).2 ∧
      (∀ l : List Int, l.Perm (contribWeights g t s.tgt)
        → l.sum = (contribWeights g t s.tgt).sum) := by
  refine ⟨?_, ?_, ?_, fun l hl => hl.sum_eq⟩
  · unfold contribWeights
    rw [List.mem_map]
    refine ⟨s, List.mem_filter.mpr ⟨hs, ?_⟩, rfl⟩
    simp [hd, hf]
  · rw [firedAt_flag g s.tgt t htgt]
    unfold evalOf
    rw [zeroDelaySum_eq_contrib g t s.tgt hwf htgt]
    rfl
  · rw [stateAt_pot_getD g t s.tgt htgt]
    unfold evalOf
    rw [zeroDelaySum_eq_contrib g t s.tgt hwf htgt]
    rfl

theorem c6_witness :
    ({ src := 0, tgt := 1, weight := 1, delay := 0 } : Synapse) ∈ gWit.synapses ∧
      firedAt gWit 0 0 = true ∧ (1 : Int) ∈ contribWeights gWit 0 1 :=
  ⟨by decide, by decide,
    (c6_zero_delay_prestep gWit { src := 0, tgt := 1, weight := 1, delay := 0 } 0 (by decide)
      (by decide) (by decide) (by decide) (by decide)).1⟩

theorem gNoFire_scheds_disjoint (t : Nat) :
    ([false, true, false, true, false, true, false, true, false, true] : List Bool).getD t false
        = false ∨
      ([false, false, true, false, true, false, true, false, true, false] : List Bool).getD t
        false = false := by
  by_cases h : t < 10
  · exact (by decide : ∀ u, u < 10 →
      (([false, true, false, true, false, true, false, true, false, true] : List Bool).getD u
          false = false ∨
        ([false, false, true, false, true, false, true, false, true, false] : List Bool).getD u
          false = false)) t h
  · left
    apply List.getD_eq_default
    have hl : ([false, true, false, true, false, true, false, true, false, true] :
      List Bool).length = 10 := rfl
    omega

theorem gNoFire_main_flag (pots : List Int) (t : Nat) :
    (evalOf gNoFire pots [] t 2 (fireFlags gNoFire pots [] t 2)).1 = false := by
  have h2 : fireFlags gNoFire pots [] t 2
      = [([false, true, false, true, false, true, false, true, false, true] : List Bool).getD t
          false,
        ([false, false, true, false, true, false, true, false, true, false] : List Bool).getD t
          false] := rfl
  rw [h2]
  cases hb0 : ([false, true, false, true, false, true, false, true, false, true] :
    List Bool).getD t false with
  | false =>
    cases hb1 : ([false, false, true, false, true, false, true, false, true, false] :
      List Bool).getD t false with
    | false => rfl
    | true => rfl
  | true =>
    cases hb1 : ([false, false, true, false, true, false, true, false, true, false] :
      List Bool).getD t false with
    | false => rfl
    | true =>
      rcases gNoFire_scheds_disjoint t with h | h
      · rw [h] at hb0
        cases hb0
      · rw [h] at hb1
        cases hb1

theorem gNoFire_newEffects (row : List Bool) (t : Nat) : newEffects gNoFire row t = [] := by
  have hj : ∀ j, outEffects gNoFire.synapses j t = [] := by
    intro j
    have hsy : gNoFire.synapses = [{ src := 0, tgt := 2, weight := 1, delay := 0 },
      { src := 1, tgt := 2, weight := 1, delay := 0 }] := rfl
    unfold outEffects
    rw [hsy]
    simp [List.filter]
  unfold newEffects
  rw [List.flatten_eq_nil_iff]
  intro l hl
  rw [List.mem_map] at hl
  obtain ⟨j, _, hjl⟩ := hl
  rw [← hjl]
  cases hb : row.getD j false
  · rfl
  · simpa using hj j

theorem gNoFire_eventsOf (pots : List Int) (k : Nat) :
    eventsOf gNoFire (fireFlags gNoFire pots [] k gNoFire.neurons.length) k = [] := by
  have hmain : (fireFlags gNoFire pots [] k gNoFire.neurons.length).getD 2 false = false := by
    have hlen : gNoFire.neurons.length = 3 := rfl
    rw [hlen, fireFlags_getD gNoFire pots [] k 3 2 (by omega)]
    exact gNoFire_main_flag pots k
  unfold eventsOf
  have hr : List.range gNoFire.neurons.length = [0, 1, 2] := rfl
  rw [hr]
  have h0 : (gNoFire.neurons[0]?.getD defNeuron).observable = false := rfl
  have h1 : (gNoFire.neurons[1]?.getD defNeuron).observable = false := rfl
  have h2 : (gNoFire.neurons[2]?.getD defNeuron).observable = true := rfl
  have hm : (fireFlags gNoFire pots [] k gNoFire.neurons.length)[2]?.getD false = false := by
    rw [← List.getD_eq_getElem?_getD]
    exact hmain
  simp [List.filter, h0, h1, h2, hm]

theorem gNoFire_invariant (k : Nat) :
    (stateAt gNoFire k).pending = [] ∧ (stateAt gNoFire k).events = [] := by
  induction k with
  | zero => exact ⟨rfl, rfl⟩
  | succ k ih =>
    obtain ⟨hp, he⟩ := ih
    have hhp : (stateAt gNoFire (k + 1)).pending
        = (stateAt gNoFire k).pending.filter (fun e => e.arrival != (stateAt gNoFire k).step) ++
          newEffects gNoFire (fireFlags gNoFire (stateAt gNoFire k).potentials
            (stateAt gNoFire k).pending (stateAt gNoFire k).step gNoFire.neurons.length)
            (stateAt gNoFire k).step := rfl
    have hhe : (stateAt gNoFire (k + 1)).events
        = (stateAt gNoFire k).events ++
          eventsOf gNoFire (fireFlags gNoFire (stateAt gNoFire k).potentials
            (stateAt gNoFire k).pending (stateAt gNoFire k).step gNoFire.neurons.length)
            (stateAt gNoFire k).step := rfl
    constructor
    · rw [hhp, hp, gNoFire_newEffects]
      rfl
    · rw [hhe, he, hp, stateAt_step, gNoFire_eventsOf]
      rfl

/-- Claim C3: with input spikes on channel 0 at steps 1,3,5,7,9 and channel 1
    at steps 2,4,6,8, running the composed instant-decay graph for 10 or more
    steps yields zero firings of the observable "main" neuron (no two channels
    ever coincide) and the harness check reports fired = false. -/
theorem c3_instant_decay_never_fires (n : Nat) (h : 10 ≤ n) :
    runEvents gNoFire n = [] ∧ instantDecayCheck gNoFire (runEvents gNoFire n) = false := by
  have he := (gNoFire_invariant n).2
  refine ⟨he, ?_⟩
  show instantDecayCheck gNoFire (stateAt gNoFire n).events = false
  rw [he]
  rfl

theorem c3_witness :
    runEvents gNoFire 16 = [] ∧ instantDecayCheck gNoFire (runEvents gNoFire 16) = false :=
  c3_instant_decay_never_fires 16 (by decide)

theorem digitChar_ne_us (d : Nat) : digitChar d ≠ '_' := by
  unfold digitChar
  split <;> decide

theorem charDigitVal_digitChar : ∀ d, d < 10 → charDigitVal (digitChar d) = d := by decide

theorem natDigitsAux_no_us (fuel : Nat) :
    ∀ (n : Nat) (c : Char), c ∈ natDigitsAux fuel n → c ≠ '_' := by
  induction fuel with
  | zero => intro n c hc; cases hc
  | succ fuel ih =>
    intro n c hc
    unfold natDigitsAux at hc
    by_cases h : n < 10
    · rw [if_pos h, List.mem_singleton] at hc
      rw [hc]
      exact digitChar_ne_us n
    · rw [if_neg h] at hc
      rcases List.mem_append.mp hc with h1 | h1
      · exact ih (n / 10) c h1
      · rw [List.mem_singleton] at h1
        rw [h1]
        exact digitChar_ne_us (n % 10)

theorem parse_digits_aux (fuel : Nat) :
    ∀ n, n < fuel → ∀ a : Nat,
      List.foldl (fun a c => 10 * a + charDigitVal c) a (natDigitsAux fuel n)
        = a * 10 ^ (natDigitsAux fuel n).length + n := by
  induction fuel with
  | zero => intro n hn; omega
  | succ fuel ih =>
    intro n hn a
    by_cases h : n < 10
    · have he : natDigitsAux (fuel + 1) n = [digitChar n] := by
        unfold natDigitsAux
        rw [if_pos h]
      rw [he]
      have hstep : List.foldl (fun a c => 10 * a + charDigitVal c) a [digitChar n]
          = 10 * a + charDigitVal (digitChar n) := rfl
      rw [hstep, charDigitVal_digitChar n h, List.length_singleton, pow_one]
      omega
    · have he : natDigitsAux (fuel + 1) n
          = natDigitsAux fuel (n / 10) ++ [digitChar (n % 10)] := by
        show (if n < 10 then [digitChar n]
            else natDigitsAux fuel (n / 10) ++ [digitChar (n % 10)])
          = natDigitsAux fuel (n / 10) ++ [digitChar (n % 10)]
        rw [if_neg h]
      have hlt : n / 10 < fuel := by omega
      rw [he, List.foldl_concat, ih (n / 10) hlt a, charDigitVal_digitChar (n % 10) (by omega),
        List.length_append, List.length_singleton]
      generalize (natDigitsAux fuel (n / 10)).length = k
      have hdm : 10 * (n / 10) + n % 10 = n := Nat.div_add_mod n 10
      calc 10 * (a * 10 ^ k + n / 10) + n % 10
          = a * (10 ^ k * 10) + (10 * (n / 10) + n % 10) := by ring
        _ = a * (10 ^ k * 10) + n := by rw [hdm]
        _ = a * 10 ^ (k + 1) + n := by rw [pow_succ]

theorem strToNat_natDigits (n : Nat) : strToNat (natDigits n) = n := by
  unfold strToNat natDigits
  rw [parse_digits_aux (n + 1) n (Nat.lt_succ_self n) 0]
  simp

theorem splitOnCharAux_no_sep (sep : Char) (xs : List Char) :
    ∀ cur : List Char, (∀ c ∈ xs, c ≠ sep) → splitOnCharAux sep xs cur = [cur.reverse ++ xs] := by
  induction xs with
  | nil => intro cur _; simp [splitOnCharAux]
  | cons c rest ih =>
    intro cur h
    have hc : (c == sep) = false := beq_eq_false_iff_ne.mpr (h c (List.mem_cons_self c rest))
    unfold splitOnCharAux
    rw [hc]
    have hrest := ih (c :: cur) (fun x hx => h x (List.mem_cons_of_mem c hx))
    simp only [Bool.false_eq_true, if_false]
    rw [hrest]
    simp [List.reverse_cons, List.append_assoc]

theorem splitOnChar_mainName (k : Nat) :
    splitOnChar '_' (mainNameOf k) = [['M', 'a', 'i', 'n'], natDigits k] := by
  unfold splitOnChar mainNameOf
  have hstep : splitOnCharAux '_' (['M', 'a', 'i', 'n', '_'] ++ natDigits k) []
      = ['M', 'a', 'i', 'n'] :: splitOnCharAux '_' (natDigits k) [] := rfl
  rw [hstep, splitOnCharAux_no_sep '_' (natDigits k) []
    (fun c hc => natDigitsAux_no_us (k + 1) k c hc)]
  simp

theorem isInfixB_mainName (k : Nat) : isInfixB ['M', 'a', 'i', 'n'] (mainNameOf k) = true := by
  have hh : isInfixB ['M', 'a', 'i', 'n'] (mainNameOf k)
      = (isPrefixB ['M', 'a', 'i', 'n'] (mainNameOf k)
        || isInfixB ['M', 'a', 'i', 'n'] (['a', 'i', 'n', '_'] ++ natDigits k)) := rfl
  have hp : isPrefixB ['M', 'a', 'i', 'n'] (mainNameOf k) = true := rfl
  rw [hh, hp, Bool.true_or]

theorem lisDecode_mainNames (ks : List Nat) :
    ∀ a : Nat, lisDecode (ks.map (fun k => (mainNameOf k, 0))) a = ks.foldl max a := by
  induction ks with
  | nil => intro a; rfl
  | cons k rest ih =>
    intro a
    have hh : lisDecode (((k :: rest).map (fun k => (mainNameOf k, 0)))) a
        = if isInfixB ['M', 'a', 'i', 'n'] (mainNameOf k) then
            lisDecode (rest.map (fun k => (mainNameOf k, 0)))
              (if a < strToNat ((splitOnChar '_' (mainNameOf k)).getD 1 []) then
                strToNat ((splitOnChar '_' (mainNameOf k)).getD 1 [])
              else a)
          else lisDecode (rest.map (fun k => (mainNameOf k, 0))) a := rfl
    rw [hh, isInfixB_mainName k, if_pos rfl, splitOnChar_mainName k]
    have hget : ([['M', 'a', 'i', 'n'], natDigits k] : List (List Char)).getD 1 []
        = natDigits k := rfl
    rw [hget, strToNat_natDigits k]
    have hmax : (if a < k then k else a) = max a k := by
      rcases Nat.lt_or_ge a k with h | h
      · rw [if_pos h]
        exact (Nat.max_eq_right (Nat.le_of_lt h)).symm
      · rw [if_neg (Nat.not_lt.mpr h)]
        exact (Nat.max_eq_left h).symm
    rw [hmax, ih (max a k)]
    rfl

theorem hasIncrGt_iff (s : List Nat) :
    ∀ (lo k : Nat), hasIncrGt lo s k = true ↔
      ∃ l, l.Sublist s ∧ chainGtB lo l = true ∧ l.length = k := by
  induction s with
  | nil =>
    intro lo k
    cases k with
    | zero =>
      constructor
      · intro _
        exact ⟨[], List.nil_sublist [], rfl, rfl⟩
      · intro _
        rfl
    | succ k =>
      constructor
      · intro h
        cases h
      · rintro ⟨l, hl, _, hlen⟩
        rw [List.sublist_nil.mp hl] at hlen
        cases hlen
  | cons a rest ih =>
    intro lo k
    cases k with
    | zero =>
      constructor
      · intro _
        exact ⟨[], List.nil_sublist _, rfl, rfl⟩
      · intro _
        rfl
    | succ k =>
      show ((decide (lo < a) && hasIncrGt a rest k) || hasIncrGt lo rest (k + 1)) = true ↔ _
      rw [Bool.or_eq_true, Bool.and_eq_true, decide_eq_true_eq]
      constructor
      · rintro (⟨hlo, hk⟩ | hrest)
        · obtain ⟨l, hl, hc, hlen⟩ := (ih a k).mp hk
          refine ⟨a :: l, hl.cons₂ a, ?_, by rw [List.length_cons, hlen]⟩
          show (decide (lo < a) && chainGtB a l) = true
          rw [Bool.and_eq_true, decide_eq_true_eq]
          exact ⟨hlo, hc⟩
        · obtain ⟨l, hl, hc, hlen⟩ := (ih lo (k + 1)).mp hrest
          exact ⟨l, hl.cons a, hc, hlen⟩
      · rintro ⟨l, hl, hc, hlen⟩
        rcases List.sublist_cons_iff.mp hl with h | ⟨r, hr, hrs⟩
        · right
          exact (ih lo (k + 1)).mpr ⟨l, h, hc, hlen⟩
        · left
          subst hr
          have hc' : (decide (lo < a) && chainGtB a r) = true := hc
          rw [Bool.and_eq_true, decide_eq_true_eq] at hc'
          refine ⟨hc'.1, (ih a k).mpr ⟨r, hrs, hc'.2, ?_⟩⟩
          rw [List.length_cons] at hlen
          omega

theorem chainGtB_zero_eq_strict (l : List Nat) (hpos : ∀ x ∈ l, 0 < x) :
    chainGtB 0 l = strictIncrB l := by
  cases l with
  | nil => rfl
  | cons a r =>
    show (decide (0 < a) && chainGtB a r) = chainGtB a r
    rw [decide_eq_true (hpos a (List.mem_cons_self a r)), Bool.true_and]

theorem hasIncr_iff_mem_incrLens (s : List Nat) (hpos : ∀ x ∈ s, 0 < x) (k : Nat) :
    hasIncrGt 0 s k = true ↔ k ∈ incrLens s := by
  rw [hasIncrGt_iff s 0 k]
  unfold incrLens
  rw [List.mem_map]
  constructor
  · rintro ⟨l, hl, hc, hlen⟩
    refine ⟨l, List.mem_filter.mpr ⟨List.mem_sublists.mpr hl, ?_⟩, hlen⟩
    rw [← chainGtB_zero_eq_strict l (fun x hx => hpos x (hl.subset hx))]
    exact hc
  · rintro ⟨l, hlm, hlen⟩
    have hmf := List.mem_filter.mp hlm
    have hsub := List.mem_sublists.mp hmf.1
    refine ⟨l, hsub, ?_, hlen⟩
    rw [chainGtB_zero_eq_strict l (fun x hx => hpos x (hsub.subset hx))]
    exact hmf.2

theorem lisLength_mem_incrLens (s : List Nat) : lisLength s ∈ incrLens s := by
  apply listMax_mem
  apply List.ne_nil_of_mem (a := (0 : Nat))
  unfold incrLens
  rw [List.mem_map]
  exact ⟨[], List.mem_filter.mpr ⟨List.mem_sublists.mpr (List.nil_sublist s), rfl⟩, rfl⟩

theorem incrLens_le_length {s : List Nat} {k : Nat} (h : k ∈ incrLens s) : k ≤ s.length := by
  unfold incrLens at h
  rw [List.mem_map] at h
  obtain ⟨l, hlm, hlen⟩ := h
  have hsub := List.mem_sublists.mp (List.mem_filter.mp hlm).1
  rw [← hlen]
  exact hsub.length_le

theorem one_le_lisLength (s : List Nat) (h : s ≠ []) : 1 ≤ lisLength s := by
  apply le_foldl_max_of_mem
  unfold incrLens
  rw [List.mem_map]
  refine ⟨[s.head h], List.mem_filter.mpr ⟨List.mem_sublists.mpr ?_, rfl⟩, rfl⟩
  rw [List.singleton_sublist]
  exact List.head_mem h

theorem findIdx_set_one : ∀ (v n : Nat), v < n →
    firstSpikeTime ((List.replicate n 0).set v 1) = v := by
  intro v
  induction v with
  | zero =>
    intro n h
    cases n with
    | zero => omega
    | succ m =>
      rw [List.replicate_succ]
      show List.findIdx (fun x => x == 1) (1 :: List.replicate m 0) = 0
      rw [List.findIdx_cons]
      rfl
  | succ v ih =>
    intro n h
    cases n with
    | zero => omega
    | succ m =>
      rw [List.replicate_succ]
      show List.findIdx (fun x => x == 1) ((0 :: List.replicate m 0).set (v + 1) 1) = v + 1
      rw [List.set_cons_succ, List.findIdx_cons]
      show firstSpikeTime ((List.replicate m 0).set v 1) + 1 = v + 1
      rw [ih m (by omega)]

theorem firstSpike_convertLIS (seq : List Nat) :
    (convertInputLIS seq).map (fun row => firstSpikeTime row) = seq := by
  unfold convertInputLIS
  rw [List.map_map]
  have hcong : ∀ v ∈ seq, ((fun row => firstSpikeTime row) ∘
      (fun time => (List.replicate (listMax seq + 1) 0).set time 1)) v = id v := by
    intro v hv
    show firstSpikeTime ((List.replicate (listMax seq + 1) 0).set v 1) = v
    have hvm : v ≤ listMax seq := le_foldl_max_of_mem 0 hv
    exact findIdx_set_one v (listMax seq + 1) (by omega)
  rw [List.map_congr_left hcong, List.map_id]

/-- Claim C9: the LIS fragment fed a sequence of positive integers (value v
    encoded as one spike at step v on its own channel), decoded by taking the
    maximum numeric suffix over all fired "Main"-named neurons, yields the
    length of the longest strictly increasing subsequence of the input; in
    particular 10, 1, 3 and 6 on the four test sequences. -/
theorem c9_lis_decode :
    (∀ s : List Nat, s ≠ [] → (∀ v ∈ s, 0 < v) → lisPipeline s = lisLength s) ∧
      lisPipeline [1, 2, 3, 4, 5, 6, 7, 8, 9, 10] = 10 ∧
      lisPipeline [10, 10, 5, 5, 1] = 1 ∧
      lisPipeline [5, 10, 2, 3, 4] = 3 ∧
      lisPipeline [1, 4, 8, 6, 2, 7, 19, 13, 14] = 6 := by
  refine ⟨?_, by decide, by decide, by decide, by decide⟩
  intro s hne hpos
  unfold lisPipeline modelLIS
  rw [firstSpike_convertLIS s]
  rw [lisDecode_mainNames ((List.range' 1 s.length).filter (fun k => hasIncrGt 0 s k)) 0]
  apply Nat.le_antisymm
  · apply foldl_max_le _ 0 (Nat.zero_le _)
    intro k hk
    have hk2 := (List.mem_filter.mp hk).2
    have hk3 : k ∈ incrLens s := (hasIncr_iff_mem_incrLens s hpos k).mp hk2
    exact le_foldl_max_of_mem 0 hk3
  · apply le_foldl_max_of_mem
    apply List.mem_filter.mpr
    refine ⟨?_, ?_⟩
    · rw [List.mem_range'_1]
      refine ⟨one_le_lisLength s hne, ?_⟩
      have hle := incrLens_le_length (lisLength_mem_incrLens s)
      omega
    · exact (hasIncr_iff_mem_incrLens s hpos (lisLength s)).mpr (lisLength_mem_incrLens s)

theorem c9_witness : lisPipeline [5, 10, 2, 3, 4] = lisLength [5, 10, 2, 3, 4] :=
  c9_lis_decode.1 [5, 10, 2, 3, 4] (by decide) (by decide)
